import Mathlib

/-!
Verification of the csvrow library: a single-row CSV field tokenizer
(`CsvRow`, an iterator yielding fields of one delimited line) and a
companion value escaper (`escape`).

The Rust source is embedded shallowly:
* a `&str` becomes a `List Char`;
* byte positions are modelled faithfully (each character contributes
  `Char.utf8Size` bytes); Rust byte slicing of a string, which panics on a
  reversed range, an out-of-range index or an index that splits a
  multi-byte character, becomes `byteSlice`, which returns `none` in
  exactly those cases;
* the iterator's `next` method becomes `CsvRow.next`, returning
  `.error ()` where the Rust code would panic, `.ok none` where it
  returns `None`, and `.ok (some (field, s'))` where it yields a field
  and the mutated iterator state `s'`;
* collecting the iterator becomes `CsvRow.run` / `tokenize`, implemented
  by a fuel-indexed loop `runFuel` (fuel `utf8Len line + 2` is proved
  sufficient below).
-/

/-- The quote character `"` (ASCII 34), fixed by the library. -/
def quoteChar : Char := Char.ofNat 34

/-- Total number of UTF-8 bytes of a list of characters (Rust `str::len`). -/
def utf8Len (l : List Char) : Nat := (l.map Char.utf8Size).sum

/-- Drop `n` UTF-8 bytes from the front; `none` if `n` is out of range or
falls inside a multi-byte character. -/
def byteDrop : List Char → Nat → Option (List Char)
  | l, 0 => some l
  | [], _ + 1 => none
  | c :: rest, n + 1 =>
    if c.utf8Size ≤ n + 1 then byteDrop rest (n + 1 - c.utf8Size) else none

/-- Take `n` UTF-8 bytes from the front; `none` if `n` is out of range or
falls inside a multi-byte character. -/
def byteTake : List Char → Nat → Option (List Char)
  | _, 0 => some []
  | [], _ + 1 => none
  | c :: rest, n + 1 =>
    if c.utf8Size ≤ n + 1 then (byteTake rest (n + 1 - c.utf8Size)).map (c :: ·)
    else none

/-- Rust byte slicing `&s[a..b]`: `none` models the panic (reversed range,
out of range, or splitting a multi-byte character). -/
def byteSlice (l : List Char) (a b : Nat) : Option (List Char) :=
  if a ≤ b then (byteDrop l a).bind (fun t => byteTake t (b - a)) else none

/-- Rust `str::ends_with('"')`. -/
def endsWithQuote (l : List Char) : Bool := l.getLast? == some quoteChar

/-- Rust `str::contains(\x7bchar\x7d)`. -/
def containsChar : List Char → Char → Bool
  | [], _ => false
  | c :: rest, x => c == x || containsChar rest x

/-- Rust `str::contains("\"\"")`: two adjacent quote characters occur. -/
def containsQQ : List Char → Bool
  | c1 :: c2 :: rest => (c1 == quoteChar && c2 == quoteChar) || containsQQ (c2 :: rest)
  | _ => false

/-- Rust `str::replace("\"\"", "\"")`: collapse each non-overlapping
doubled quote (left to right) to a single quote. -/
def replaceQQ : List Char → List Char
  | [] => []
  | [c] => [c]
  | c1 :: c2 :: rest =>
    bif c1 == quoteChar && c2 == quoteChar then quoteChar :: replaceQQ rest
    else c1 :: replaceQQ (c2 :: rest)

/-- The value computed by lines 93-96 of `next`: collapse doubled quotes
when present, otherwise keep the slice as is. -/
def collapseQQ (r : List Char) : List Char := bif containsQQ r then replaceQQ r else r

/-- Rust `str::replace("\"", "\"\"")` as used by `escape`: double every
quote character. -/
def doubleQuotes : List Char → List Char
  | [] => []
  | c :: rest =>
    bif c == quoteChar then quoteChar :: quoteChar :: doubleQuotes rest
    else c :: doubleQuotes rest

/-- `csvrow::escape`: wrap in quotes, doubling internal quotes, exactly when
the value contains the delimiter or a quote; otherwise return it unchanged. -/
def escape (expression : List Char) (delimiter : Char) : List Char :=
  bif containsChar expression delimiter || containsChar expression quoteChar then
    quoteChar :: doubleQuotes expression ++ [quoteChar]
  else expression

/-- The state of the `CsvRow` iterator (struct `CsvRow` in the source). -/
structure CsvRow where
  line : List Char
  delimiter : Char
  literal : Bool
  char_pos : Nat
  byte_pos : Nat
  prev_char : Option Char
deriving DecidableEq

/-- `CsvRow::new`. -/
def CsvRow.new (line : List Char) (delimiter : Char) (literal : Bool) : CsvRow :=
  { line := line, delimiter := delimiter, literal := literal,
    char_pos := 0, byte_pos := 0, prev_char := none }

/-- The `for (_, c) in charenum` loop of `CsvRow::next` (lines 57-70):
arguments are the running `prev_char`, the remaining characters, the
accumulated `byte_length` and the `quoted` flag; returns the final
`(byte_length, quoted, prev_char)`. -/
def scanLoop (delimiter : Char) : Option Char → List Char → Nat → Bool →
    Nat × Bool × Option Char
  | prev, [], byte_length, quoted => (byte_length, quoted, prev)
  | prev, c :: rest, byte_length, quoted =>
    let quoted := (byte_length == 0 && c == quoteChar) || quoted
    bif c == delimiter && (!quoted || prev == some quoteChar) then
      (byte_length, quoted, prev)
    else
      scanLoop delimiter (some c) rest (byte_length + c.utf8Size) quoted

/-- `CsvRow::next` (the `Iterator` implementation). `.error ()` marks the
states in which the Rust code panics on a string-slicing operation. -/
def CsvRow.next (s : CsvRow) : Except Unit (Option (List Char × CsvRow)) :=
  if s.byte_pos > utf8Len s.line || utf8Len s.line == 0 then .ok none
  else
    match scanLoop s.delimiter s.prev_char (s.line.drop s.char_pos) 0 false with
    | (byte_length, quoted0, prev) =>
      match (if byte_length == 0 then some []
             else byteSlice s.line s.byte_pos (s.byte_pos + byte_length)) with
      | none => .error ()
      | some result =>
        let quoted := quoted0 && endsWithQuote result
        let s' : CsvRow :=
          { s with char_pos := s.char_pos + result.length + 1,
                   byte_pos := s.byte_pos + utf8Len result + s.delimiter.utf8Size,
                   prev_char := prev }
        bif s.literal then .ok (some (result, s'))
        else bif quoted then
          match byteSlice result 1 (utf8Len result - 1) with
          | none => .error ()
          | some r => .ok (some (collapseQQ r, s'))
        else .ok (some (collapseQQ result, s'))

/-- Iterate `CsvRow.next` to exhaustion, collecting the yielded fields;
`none` when the fuel runs out, `some (.error ())` when a call panics. -/
def runFuel : Nat → CsvRow → Option (Except Unit (List (List Char)))
  | 0, _ => none
  | fuel + 1, s =>
    match s.next with
    | .error _ => some (.error ())
    | .ok none => some (.ok [])
    | .ok (some (f, s')) => (runFuel fuel s').map (fun r => r.map (fun fs => f :: fs))

/-- Collect the iterator; fuel `utf8Len line + 2` is proved sufficient. -/
def CsvRow.run (s : CsvRow) : Except Unit (List (List Char)) :=
  (runFuel (utf8Len s.line + 2) s).getD (.error ())

/-- Tokenize one line: collect all fields of `CsvRow::new(line, d, lit)`. -/
def tokenize (line : List Char) (d : Char) (lit : Bool) :
    Except Unit (List (List Char)) :=
  (CsvRow.new line d lit).run

/-! Specification-side definitions, used to state the claims. -/

/-- The characters consumed by one field scan, together with the final
`quoted` flag and `prev_char`: a recursive restatement of `scanLoop` that
returns the consumed prefix itself instead of its byte length.  The
`start` flag tracks `byte_length == 0`. -/
def scanSplit (delimiter : Char) : Option Char → Bool → Bool → List Char →
    List Char × Bool × Option Char
  | prev, quoted, _, [] => ([], quoted, prev)
  | prev, quoted, start, c :: rest =>
    let quoted := (start && c == quoteChar) || quoted
    bif c == delimiter && (!quoted || prev == some quoteChar) then
      ([], quoted, prev)
    else
      let r := scanSplit delimiter (some c) quoted false rest
      (c :: r.1, r.2.1, r.2.2)

/-- Number of delimiter occurrences in a line at which a field scan
terminates ("non-quoted delimiter occurrences"): one flat pass over the
whole line, restarting the per-field state after each terminator. -/
def countBreaks (d : Char) : Option Char → Bool → Bool → List Char → Nat
  | _, _, _, [] => 0
  | prev, quoted, start, c :: rest =>
    let quoted := (start && c == quoteChar) || quoted
    bif c == d && (!quoted || prev == some quoteChar) then
      1 + countBreaks d prev false true rest
    else countBreaks d (some c) quoted false rest

/-- The quote-stripping and doubled-quote-collapsing rule applied by the
non-literal branch of `next` to a raw captured slice (`.error ()` where
that branch panics, namely on the slice consisting of a lone quote). -/
def unescape (r : List Char) : Except Unit (List Char) :=
  bif (r.head? == some quoteChar) && endsWithQuote r then
    match byteSlice r 1 (utf8Len r - 1) with
    | none => .error ()
    | some r2 => .ok (collapseQQ r2)
  else .ok (collapseQQ r)

/-- Apply the unescaping rule to every field of a list, propagating the
first fault. -/
def unescapeAll : List (List Char) → Except Unit (List (List Char))
  | [] => .ok []
  | f :: fs =>
    match unescape f with
    | .error e => .error e
    | .ok g =>
      match unescapeAll fs with
      | .error e => .error e
      | .ok gs => .ok (g :: gs)

/-- The last element of `l`, or `p` when `l` is empty (the value of
`prev_char` after consuming `l`). -/
def lastOr (p : Option Char) : List Char → Option Char
  | [] => p
  | c :: l => lastOr (some c) l

/-- The cursor invariant: the character offset is inside the line and the
byte offset is the UTF-8 length of the characters before it, so both
refer to the same logical point. -/
def Synced (s : CsvRow) : Prop :=
  s.char_pos ≤ s.line.length ∧ s.byte_pos = utf8Len (s.line.take s.char_pos)

/-- A state is either synced or already past the end of the line (the
state left behind after the final field was yielded). -/
def SyncedOrDone (s : CsvRow) : Prop :=
  Synced s ∨ utf8Len s.line < s.byte_pos

/-- The scan performed by one call to `next` on state `s`: the consumed
characters, the scan `quoted` flag and the final `prev_char`. -/
def fieldSplit (s : CsvRow) : List Char × Bool × Option Char :=
  scanSplit s.delimiter s.prev_char false true (s.line.drop s.char_pos)

/-- The successor state built by one yielding call of `next`. -/
def advance (s : CsvRow) : CsvRow :=
  { s with char_pos := s.char_pos + (fieldSplit s).1.length + 1,
           byte_pos := s.byte_pos + utf8Len (fieldSplit s).1 + s.delimiter.utf8Size,
           prev_char := (fieldSplit s).2.2 }

/-- `v` contains a quote character immediately followed by `d`. -/
def hasQD (d : Char) : List Char → Bool
  | c1 :: c2 :: rest => (c1 == quoteChar && c2 == d) || hasQD d (c2 :: rest)
  | _ => false

/-- Join the escaped values with the delimiter: the row built by
`escape(v_i, d)` joined with `d`. -/
def joinEscaped (d : Char) : List (List Char) → List Char
  | [] => []
  | [v] => escape v d
  | v :: vs => escape v d ++ d :: joinEscaped d vs

/-! Basic facts about UTF-8 byte lengths and byte slicing. -/

theorem quoteChar_utf8Size : quoteChar.utf8Size = 1 := by decide

theorem utf8Len_nil : utf8Len [] = 0 := rfl

theorem utf8Len_cons (c : Char) (l : List Char) :
    utf8Len (c :: l) = c.utf8Size + utf8Len l := by
  simp [utf8Len]

theorem utf8Len_append (a b : List Char) :
    utf8Len (a ++ b) = utf8Len a + utf8Len b := by
  simp [utf8Len]

theorem utf8Len_eq_zero {l : List Char} : utf8Len l = 0 ↔ l = [] := by
  cases l with
  | nil => simp [utf8Len]
  | cons c t =>
    simp only [utf8Len_cons]
    have := c.utf8Size_pos
    constructor
    · intro h; omega
    · intro h; cases h

theorem utf8Len_pos {l : List Char} (h : l ≠ []) : 0 < utf8Len l := by
  cases l with
  | nil => exact absurd rfl h
  | cons c t => have := c.utf8Size_pos; simp [utf8Len_cons]; omega

theorem byteDrop_zero (l : List Char) : byteDrop l 0 = some l := by
  cases l <;> rfl

theorem byteDrop_cons_of {c : Char} {n : Nat} (l : List Char)
    (h0 : 0 < n) (hle : c.utf8Size ≤ n) :
    byteDrop (c :: l) n = byteDrop l (n - c.utf8Size) := by
  cases n with
  | zero => omega
  | succ m => simp [byteDrop, hle]

theorem byteTake_zero (l : List Char) : byteTake l 0 = some [] := by
  cases l <;> rfl

theorem byteTake_cons_of {c : Char} {n : Nat} (l : List Char)
    (h0 : 0 < n) (hle : c.utf8Size ≤ n) :
    byteTake (c :: l) n = (byteTake l (n - c.utf8Size)).map (c :: ·) := by
  cases n with
  | zero => omega
  | succ m => simp [byteTake, hle]

theorem byteDrop_append (a b : List Char) :
    byteDrop (a ++ b) (utf8Len a) = some b := by
  induction a with
  | nil => simp [utf8Len_nil, byteDrop_zero]
  | cons c t ih =>
    have hc := c.utf8Size_pos
    rw [List.cons_append, utf8Len_cons,
      byteDrop_cons_of (t ++ b) (by omega) (by omega)]
    simpa using ih

theorem byteTake_append (a b : List Char) :
    byteTake (a ++ b) (utf8Len a) = some a := by
  induction a with
  | nil => simp [utf8Len_nil, byteTake_zero]
  | cons c t ih =>
    have hc := c.utf8Size_pos
    rw [List.cons_append, utf8Len_cons,
      byteTake_cons_of (t ++ b) (by omega) (by omega)]
    simp only [Nat.add_sub_cancel_left] at *
    rw [ih]
    rfl

theorem byteSlice_spec (pre mid post : List Char) :
    byteSlice (pre ++ mid ++ post) (utf8Len pre) (utf8Len pre + utf8Len mid) =
      some mid := by
  unfold byteSlice
  rw [if_pos (by omega)]
  rw [List.append_assoc, byteDrop_append]
  simp only [Option.bind_some, Nat.add_sub_cancel_left]
  exact byteTake_append mid post

theorem byteSlice_strip (m : List Char) :
    byteSlice (quoteChar :: m ++ [quoteChar])
      1 (utf8Len (quoteChar :: m ++ [quoteChar]) - 1) = some m := by
  have h1 : utf8Len (quoteChar :: m ++ [quoteChar]) = utf8Len m + 2 := by
    simp only [List.cons_append, utf8Len_cons, utf8Len_append, utf8Len_nil,
      quoteChar_utf8Size]
    omega
  rw [h1]
  unfold byteSlice
  rw [if_pos (by omega)]
  rw [List.cons_append,
    byteDrop_cons_of (m ++ [quoteChar]) (by omega) (by rw [quoteChar_utf8Size])]
  rw [quoteChar_utf8Size]
  simp only [Nat.sub_self, byteDrop_zero, Option.bind_some]
  have h2 : utf8Len m + 2 - 1 - 1 = utf8Len m := by omega
  rw [h2]
  exact byteTake_append m [quoteChar]


/-! Facts about `lastOr` and `endsWithQuote`. -/

theorem lastOr_nil (p : Option Char) : lastOr p [] = p := rfl

theorem lastOr_cons (p : Option Char) (c : Char) (l : List Char) :
    lastOr p (c :: l) = lastOr (some c) l := rfl

theorem lastOr_concat (p : Option Char) (l : List Char) (x : Char) :
    lastOr p (l ++ [x]) = some x := by
  induction l generalizing p with
  | nil => rfl
  | cons c t ih => exact ih (some c)

theorem endsWithQuote_concat (m : List Char) :
    endsWithQuote (m ++ [quoteChar]) = true := by
  simp [endsWithQuote, List.getLast?_concat]

theorem endsWithQuote_nil : endsWithQuote [] = false := rfl

/-! The `for` loop of `next` computes the byte length of the prefix that
`scanSplit` returns, with the same final `quoted` flag and `prev_char`. -/

theorem scanLoop_eq_split (d : Char) (cs : List Char) :
    ∀ (p : Option Char) (q : Bool) (bl : Nat) (start : Bool),
    (bl = 0 ↔ start = true) →
    scanLoop d p cs bl q =
      (bl + utf8Len (scanSplit d p q start cs).1,
       (scanSplit d p q start cs).2.1, (scanSplit d p q start cs).2.2) := by
  induction cs with
  | nil => intro p q bl start _; simp [scanLoop, scanSplit, utf8Len_nil]
  | cons c rest ih =>
    intro p q bl start h
    have hb : (bl == 0) = start := by
      cases start with
      | true => have : bl = 0 := h.mpr rfl; simp [this]
      | false =>
        have : bl ≠ 0 := by
          intro h0
          exact absurd (h.mp h0) (by simp)
        exact beq_eq_false_iff_ne.mpr this
    simp only [scanLoop, scanSplit, hb]
    cases hbr : (c == d && (!((start && c == quoteChar) || q) || p == some quoteChar)) with
    | true => simp [hbr, utf8Len_nil]
    | false =>
      have hpos := c.utf8Size_pos
      simp only [hbr, cond_false]
      rw [ih (some c) _ (bl + c.utf8Size) false
        (by simp only [Bool.false_eq_true, iff_false]; omega)]
      rw [utf8Len_cons, Nat.add_assoc]

/-- Structure of a field scan: the consumed characters form a prefix of the
input, the final `prev_char` is the last consumed character (or the
incoming one), and the remainder is empty or starts with the delimiter. -/
theorem scanSplit_split (d : Char) (cs : List Char) :
    ∀ (p : Option Char) (q : Bool) (start : Bool),
    ∃ rem, cs = (scanSplit d p q start cs).1 ++ rem ∧
      (scanSplit d p q start cs).2.2 = lastOr p (scanSplit d p q start cs).1 ∧
      (rem = [] ∨ ∃ r', rem = d :: r') := by
  induction cs with
  | nil =>
    intro p q start
    exact ⟨[], by simp [scanSplit], by simp [scanSplit, lastOr_nil], Or.inl rfl⟩
  | cons c rest ih =>
    intro p q start
    simp only [scanSplit]
    cases hbr : (c == d && (!((start && c == quoteChar) || q) || p == some quoteChar)) with
    | true =>
      refine ⟨c :: rest, by simp [hbr], by simp [hbr, lastOr_nil], ?_⟩
      right
      have hcd : c = d := by
        have := (Bool.and_eq_true _ _).mp hbr
        exact eq_of_beq this.1
      exact ⟨rest, by rw [hcd]⟩
    | false =>
      simp only [hbr, cond_false]
      obtain ⟨rem, h1, h2, h3⟩ := ih (some c) ((start && c == quoteChar) || q) false
      refine ⟨rem, ?_, ?_, h3⟩
      · simpa using congrArg (c :: ·) h1
      · rw [lastOr_cons]; exact h2

/-- Once the field is past its first character, the `quoted` flag never
changes. -/
theorem scanSplit_q_stable (d : Char) (cs : List Char) :
    ∀ (p : Option Char) (q : Bool),
    (scanSplit d p q false cs).2.1 = q := by
  induction cs with
  | nil => intro p q; simp [scanSplit]
  | cons c rest ih =>
    intro p q
    simp only [scanSplit, Bool.false_and, Bool.false_or]
    cases hbr : (c == d && (!q || p == some quoteChar)) with
    | true => simp [hbr]
    | false => simp only [hbr, cond_false]; exact ih (some c) q

/-- For a fresh field scan the final `quoted` flag, conjoined with the
ends-with-quote test, just asks whether the consumed slice starts and ends
with a quote. -/
theorem scanSplit_q_head (d : Char) (cs : List Char) (p : Option Char) :
    ((scanSplit d p false true cs).2.1 && endsWithQuote (scanSplit d p false true cs).1)
      = (((scanSplit d p false true cs).1.head? == some quoteChar)
          && endsWithQuote (scanSplit d p false true cs).1) := by
  cases cs with
  | nil => simp [scanSplit, endsWithQuote_nil]
  | cons c rest =>
    simp only [scanSplit, Bool.true_and, Bool.or_false]
    cases hbr : (c == d && (!(c == quoteChar) || p == some quoteChar)) with
    | true => simp [hbr, endsWithQuote_nil]
    | false =>
      simp only [hbr, cond_false]
      rw [scanSplit_q_stable]
      simp

/-! Behaviour of a single call to `next`. -/

theorem utf8Len_take_le (l : List Char) (n : Nat) :
    utf8Len (l.take n) ≤ utf8Len l := by
  conv_rhs => rw [← List.take_append_drop n l]
  rw [utf8Len_append]
  omega

theorem take_app_len (a : List Char) (k : Nat) :
    ∀ b : List Char, (a ++ b).take (a.length + k) = a ++ b.take k := by
  induction a with
  | nil => intro b; simp
  | cons c t ih => intro b; simp [List.length_cons, Nat.succ_add, ih]

theorem next_past {s : CsvRow} (h : utf8Len s.line < s.byte_pos) :
    s.next = .ok none := by
  unfold CsvRow.next
  rw [if_pos]
  simp only [Bool.or_eq_true, decide_eq_true_eq]
  exact Or.inl h

theorem next_nil {s : CsvRow} (h : s.line = []) : s.next = .ok none := by
  unfold CsvRow.next
  rw [if_pos]
  simp only [Bool.or_eq_true, beq_iff_eq]
  right
  rw [h, utf8Len_nil]

/-- Under the cursor invariant, a call to `next` on a non-empty line scans
the remainder of the line, slices the consumed characters out, and either
returns them raw (literal mode) or applies the unescaping rule. -/
theorem next_spec (s : CsvRow) (hs : Synced s) (hl : s.line ≠ []) :
    s.next = (bif s.literal then .ok (some ((fieldSplit s).1, advance s))
              else (unescape (fieldSplit s).1).map (fun g => some (g, advance s))) := by
  obtain ⟨hcp, hbp⟩ := hs
  have hlen0 : utf8Len s.line ≠ 0 := by
    have := utf8Len_pos hl
    omega
  have hble : s.byte_pos ≤ utf8Len s.line := hbp ▸ utf8Len_take_le s.line s.char_pos
  obtain ⟨rem, hsplit, hlast, hrem⟩ :=
    scanSplit_split s.delimiter (s.line.drop s.char_pos) s.prev_char false true
  have hsplit' : s.line.drop s.char_pos = (fieldSplit s).1 ++ rem := hsplit
  have hlast' : (fieldSplit s).2.2 = lastOr s.prev_char (fieldSplit s).1 := hlast
  have hline : s.line = s.line.take s.char_pos ++ (fieldSplit s).1 ++ rem := by
    rw [List.append_assoc, ← hsplit', List.take_append_drop]
  have hslice : byteSlice s.line s.byte_pos (s.byte_pos + utf8Len (fieldSplit s).1)
      = some (fieldSplit s).1 := by
    have h1 := byteSlice_spec (s.line.take s.char_pos) (fieldSplit s).1 rem
    rw [← hline] at h1
    rw [hbp]
    exact h1
  have hq : ((fieldSplit s).2.1 && endsWithQuote (fieldSplit s).1)
      = (((fieldSplit s).1.head? == some quoteChar)
          && endsWithQuote (fieldSplit s).1) :=
    scanSplit_q_head s.delimiter (s.line.drop s.char_pos) s.prev_char
  unfold CsvRow.next
  rw [if_neg (by
    simp only [Bool.or_eq_true, decide_eq_true_eq, beq_iff_eq]
    push_neg
    exact ⟨by omega, hlen0⟩)]
  rw [scanLoop_eq_split s.delimiter (s.line.drop s.char_pos) s.prev_char false 0 true
    (by simp)]
  dsimp only
  simp only [Nat.zero_add]
  have hmain : (if (utf8Len (fieldSplit s).1 == 0) = true then some []
      else byteSlice s.line s.byte_pos (s.byte_pos + utf8Len (fieldSplit s).1))
      = some (fieldSplit s).1 := by
    by_cases htke : (fieldSplit s).1 = []
    · rw [htke, utf8Len_nil]
      simp
    · rw [if_neg (by
        simp only [beq_iff_eq]
        exact fun h => htke (utf8Len_eq_zero.mp h))]
      exact hslice
  have hmain' : (if (utf8Len (scanSplit s.delimiter s.prev_char false true
        (s.line.drop s.char_pos)).1 == 0) = true then some []
      else byteSlice s.line s.byte_pos (s.byte_pos +
        utf8Len (scanSplit s.delimiter s.prev_char false true
          (s.line.drop s.char_pos)).1))
      = some (scanSplit s.delimiter s.prev_char false true
          (s.line.drop s.char_pos)).1 := hmain
  rw [hmain']
  dsimp only
  cases hlit : s.literal with
  | true =>
    simp only [cond_true, fieldSplit, advance, hlit]
  | false =>
    simp only [cond_false]
    have hq' : ((scanSplit s.delimiter s.prev_char false true
        (s.line.drop s.char_pos)).2.1
          && endsWithQuote (scanSplit s.delimiter s.prev_char false true
            (s.line.drop s.char_pos)).1)
        = (((scanSplit s.delimiter s.prev_char false true
            (s.line.drop s.char_pos)).1.head? == some quoteChar)
          && endsWithQuote (scanSplit s.delimiter s.prev_char false true
            (s.line.drop s.char_pos)).1) := hq
    rw [hq']
    unfold unescape
    simp only [fieldSplit, advance, hlit]
    cases hqh : (((scanSplit s.delimiter s.prev_char false true
        (s.line.drop s.char_pos)).1.head? == some quoteChar)
        && endsWithQuote (scanSplit s.delimiter s.prev_char false true
          (s.line.drop s.char_pos)).1) with
    | true =>
      simp only [cond_true]
      cases hbs : byteSlice (scanSplit s.delimiter s.prev_char false true
          (s.line.drop s.char_pos)).1 1
          (utf8Len (scanSplit s.delimiter s.prev_char false true
            (s.line.drop s.char_pos)).1 - 1) with
      | none => simp only [Except.map]
      | some r => simp only [Except.map]
    | false =>
      simp only [cond_false, Except.map]

/-! State evolution and fuel adequacy. -/

theorem advance_line (s : CsvRow) : (advance s).line = s.line := rfl

theorem advance_byte_lt (s : CsvRow) : s.byte_pos < (advance s).byte_pos := by
  have := s.delimiter.utf8Size_pos
  simp only [advance]
  omega

theorem synced_new (line : List Char) (d : Char) (lit : Bool) :
    Synced (CsvRow.new line d lit) := by
  refine ⟨Nat.zero_le _, ?_⟩
  simp [CsvRow.new, utf8Len_nil]

/-- One yielding step preserves the invariant: the successor state is
synced again (the scan stopped at a delimiter) or strictly past the end of
the line (the scan ran to the end of the line). -/
theorem sync_advance {s : CsvRow} (hs : Synced s) (_hl : s.line ≠ []) :
    SyncedOrDone (advance s) := by
  obtain ⟨hcp, hbp⟩ := hs
  obtain ⟨rem, hsplit, hlast, hrem⟩ :=
    scanSplit_split s.delimiter (s.line.drop s.char_pos) s.prev_char false true
  have hsplit' : s.line.drop s.char_pos = (fieldSplit s).1 ++ rem := hsplit
  have hline : s.line = s.line.take s.char_pos ++ (fieldSplit s).1 ++ rem := by
    rw [List.append_assoc, ← hsplit', List.take_append_drop]
  have htlen : (s.line.take s.char_pos).length = s.char_pos := by
    rw [List.length_take]
    omega
  have hdel := s.delimiter.utf8Size_pos
  cases hrem with
  | inl hr =>
    right
    rw [advance_line]
    have : utf8Len s.line = utf8Len (s.line.take s.char_pos)
        + utf8Len (fieldSplit s).1 := by
      conv_lhs => rw [hline, hr]
      rw [List.append_nil, utf8Len_append]
    simp only [advance]
    omega
  | inr hr =>
    obtain ⟨r', hr⟩ := hr
    left
    constructor
    · have := congrArg List.length hline
      rw [hr] at this
      simp only [List.length_append, List.length_cons, htlen] at this
      simp only [advance, advance_line]
      omega
    · have htake : (advance s).line.take ((advance s).char_pos)
          = s.line.take s.char_pos ++ ((fieldSplit s).1 ++ [s.delimiter]) := by
        rw [advance_line]
        conv_lhs => rw [hline, hr]
        simp only [advance]
        rw [List.append_assoc]
        have h1 : s.char_pos + (fieldSplit s).1.length + 1
            = (s.line.take s.char_pos).length + ((fieldSplit s).1.length + 1) := by
          rw [htlen]
          omega
        rw [h1, take_app_len]
        congr 1
        have h2 : (fieldSplit s).1.length + 1 = (fieldSplit s).1.length + 1 := rfl
        rw [take_app_len ((fieldSplit s).1) 1 (s.delimiter :: r')]
        simp
      rw [htake, utf8Len_append, utf8Len_append]
      simp only [advance, utf8Len_cons, utf8Len_nil]
      rw [← hbp]
      omega

theorem next_advance_of_some {s : CsvRow} {f : List Char} {s' : CsvRow}
    (hs : Synced s) (h : s.next = .ok (some (f, s'))) : s' = advance s := by
  by_cases hl : s.line = []
  · rw [next_nil hl] at h
    simp at h
  · rw [next_spec s hs hl] at h
    cases hlit : s.literal with
    | true =>
      rw [hlit] at h
      simp only [cond_true, Except.ok.injEq, Option.some.injEq, Prod.mk.injEq] at h
      exact h.2.symm
    | false =>
      rw [hlit] at h
      simp only [cond_false] at h
      cases hu : unescape (fieldSplit s).1 with
      | error e => rw [hu] at h; simp [Except.map] at h
      | ok g =>
        rw [hu] at h
        simp only [Except.map, Except.ok.injEq, Option.some.injEq, Prod.mk.injEq] at h
        exact h.2.symm

theorem runFuel_step_error {s : CsvRow} (fuel : Nat) (hn : s.next = .error ()) :
    runFuel (fuel + 1) s = some (.error ()) := by
  simp only [runFuel, hn]

theorem runFuel_step_none {s : CsvRow} (fuel : Nat) (hn : s.next = .ok none) :
    runFuel (fuel + 1) s = some (.ok []) := by
  simp only [runFuel, hn]

theorem runFuel_step_some {s : CsvRow} {f : List Char} {s' : CsvRow} (fuel : Nat)
    (hn : s.next = .ok (some (f, s'))) :
    runFuel (fuel + 1) s
      = (runFuel fuel s').map (fun r => r.map (fun fs => f :: fs)) := by
  simp only [runFuel, hn]

theorem runFuel_mono : ∀ (f f' : Nat) (s : CsvRow) (r : Except Unit (List (List Char))),
    f ≤ f' → runFuel f s = some r → runFuel f' s = some r := by
  intro f
  induction f with
  | zero => intro f' s r _ h; simp [runFuel] at h
  | succ f ih =>
    intro f' s r hle h
    cases f' with
    | zero => omega
    | succ f'' =>
      cases hn : s.next with
      | error e =>
        cases e
        rw [runFuel_step_error f hn] at h
        rw [runFuel_step_error f'' hn]
        exact h
      | ok o =>
        cases o with
        | none =>
          rw [runFuel_step_none f hn] at h
          rw [runFuel_step_none f'' hn]
          exact h
        | some p =>
          obtain ⟨f1, s1⟩ := p
          rw [runFuel_step_some f hn] at h
          rw [runFuel_step_some f'' hn]
          obtain ⟨r0, hr0, hmap⟩ := Option.map_eq_some'.mp h
          rw [ih f'' s1 r0 (by omega) hr0]
          simp [hmap]

theorem runFuel_suff : ∀ (fuel : Nat) (s : CsvRow), SyncedOrDone s →
    utf8Len s.line + 2 ≤ fuel + s.byte_pos → 1 ≤ fuel →
    (runFuel fuel s).isSome := by
  intro fuel
  induction fuel with
  | zero => intro s _ _ h1; omega
  | succ fuel ih =>
    intro s hinv hle _
    cases hn : s.next with
    | error e =>
      cases e
      rw [runFuel_step_error fuel hn]
      simp
    | ok o =>
      cases o with
      | none =>
        rw [runFuel_step_none fuel hn]
        simp
      | some p =>
        obtain ⟨f, s'⟩ := p
        have hl : s.line ≠ [] := by
          intro h
          rw [next_nil h] at hn
          simp at hn
        have hsync : Synced s := by
          cases hinv with
          | inl h => exact h
          | inr h => rw [next_past h] at hn; simp at hn
        have hble : s.byte_pos ≤ utf8Len s.line := by
          by_contra hc
          push_neg at hc
          rw [next_past hc] at hn
          simp at hn
        have hs' : s' = advance s := next_advance_of_some hsync hn
        have hbyte : s.byte_pos < s'.byte_pos := hs' ▸ advance_byte_lt s
        have hline' : s'.line = s.line := hs' ▸ advance_line s
        have hinv' : SyncedOrDone s' := hs' ▸ sync_advance hsync hl
        have hrec := ih s' hinv' (by rw [hline']; omega) (by omega)
        rw [runFuel_step_some fuel hn]
        obtain ⟨rr, hrr⟩ := Option.isSome_iff_exists.mp hrec
        rw [hrr]
        simp

theorem run_of_runFuel {s : CsvRow} {fuel : Nat} {r : Except Unit (List (List Char))}
    (hinv : SyncedOrDone s) (h : runFuel fuel s = some r) : s.run = r := by
  have hsuff := runFuel_suff (utf8Len s.line + 2) s hinv (by omega) (by omega)
  obtain ⟨r', hr'⟩ := Option.isSome_iff_exists.mp hsuff
  have h1 := runFuel_mono fuel (max fuel (utf8Len s.line + 2)) s r (le_max_left _ _) h
  have h2 := runFuel_mono (utf8Len s.line + 2) (max fuel (utf8Len s.line + 2)) s r'
    (le_max_right _ _) hr'
  rw [h1] at h2
  have : r = r' := by injection h2
  unfold CsvRow.run
  rw [hr', ← this]
  rfl

/-! Finer structure of `advance` and the flat delimiter count. -/

theorem drop_app_len (a : List Char) (k : Nat) :
    ∀ b : List Char, (a ++ b).drop (a.length + k) = b.drop k := by
  induction a with
  | nil => intro b; simp
  | cons c t ih => intro b; simp [List.length_cons, Nat.succ_add, ih]

theorem advance_char_pos (s : CsvRow) :
    (advance s).char_pos = s.char_pos + (fieldSplit s).1.length + 1 := rfl

theorem advance_byte_pos (s : CsvRow) :
    (advance s).byte_pos = s.byte_pos + utf8Len (fieldSplit s).1 + s.delimiter.utf8Size := rfl

theorem advance_prev (s : CsvRow) : (advance s).prev_char = (fieldSplit s).2.2 := rfl

theorem advance_delim (s : CsvRow) : (advance s).delimiter = s.delimiter := rfl

/-- When the scan consumed the whole remainder (no terminating delimiter),
the successor state is past the end of the line. -/
theorem advance_scan_done {s : CsvRow} (hs : Synced s)
    (hr : s.line.drop s.char_pos = (fieldSplit s).1) :
    utf8Len s.line < (advance s).byte_pos := by
  obtain ⟨hcp, hbp⟩ := hs
  have hline : s.line = s.line.take s.char_pos ++ (fieldSplit s).1 := by
    conv_lhs => rw [← List.take_append_drop s.char_pos s.line]
    rw [hr]
  obtain ⟨pre, tk, hpre, hbp', hbpos⟩ :
      ∃ pre tk, s.line = pre ++ tk ∧ s.byte_pos = utf8Len pre ∧
        (advance s).byte_pos = s.byte_pos + utf8Len tk + s.delimiter.utf8Size :=
    ⟨s.line.take s.char_pos, (fieldSplit s).1, hline, hbp, rfl⟩
  have hdel := s.delimiter.utf8Size_pos
  rw [hpre, utf8Len_append, hbpos, hbp']
  omega

/-- When the scan stopped at a delimiter, the successor state is synced
again and its cursor sits just past that delimiter. -/
theorem advance_scan_more {s : CsvRow} {r' : List Char} (hs : Synced s)
    (hr : s.line.drop s.char_pos = (fieldSplit s).1 ++ s.delimiter :: r') :
    Synced (advance s) ∧ s.line.drop ((advance s).char_pos) = r' := by
  obtain ⟨hcp, hbp⟩ := hs
  have htlen : (s.line.take s.char_pos).length = s.char_pos := by
    rw [List.length_take]
    omega
  have hline : s.line = s.line.take s.char_pos
      ++ ((fieldSplit s).1 ++ s.delimiter :: r') := by
    conv_lhs => rw [← List.take_append_drop s.char_pos s.line]
    rw [hr]
  obtain ⟨pre, tk, hpre, hplen, hbp', hcpos, hbpos⟩ :
      ∃ pre tk, s.line = pre ++ (tk ++ s.delimiter :: r') ∧ pre.length = s.char_pos
        ∧ s.byte_pos = utf8Len pre
        ∧ (advance s).char_pos = s.char_pos + tk.length + 1
        ∧ (advance s).byte_pos = s.byte_pos + utf8Len tk + s.delimiter.utf8Size :=
    ⟨s.line.take s.char_pos, (fieldSplit s).1, hline, htlen, hbp, rfl, rfl⟩
  have harith : s.char_pos + tk.length + 1 = pre.length + (tk.length + 1) := by omega
  refine ⟨⟨?_, ?_⟩, ?_⟩
  · rw [advance_line, hcpos]
    have := congrArg List.length hpre
    simp only [List.length_append, List.length_cons] at this
    omega
  · rw [advance_line, hcpos, hbpos, hbp', harith, hpre, take_app_len]
    have htk1 : (tk ++ s.delimiter :: r').take (tk.length + 1) = tk ++ [s.delimiter] := by
      have h0 : tk.length + 1 = tk.length + 1 := rfl
      rw [take_app_len tk 1 (s.delimiter :: r')]
      simp
    rw [htk1, utf8Len_append, utf8Len_append, utf8Len_cons, utf8Len_nil]
    omega
  · rw [hcpos, harith, hpre, drop_app_len]
    have : tk.length + 1 = tk.length + 1 := rfl
    rw [drop_app_len tk 1 (s.delimiter :: r')]
    simp

/-- The flat pass `countBreaks` decomposes along one field scan: no
terminating delimiter means zero breaks in the remainder, and a scan that
stops at a delimiter contributes one break plus the breaks of the tail. -/
theorem countBreaks_split (d : Char) (cs : List Char) :
    ∀ (p : Option Char) (q start : Bool) (rem : List Char),
    cs = (scanSplit d p q start cs).1 ++ rem →
    countBreaks d p q start cs =
      (match rem with
       | [] => 0
       | _ :: r' => 1 + countBreaks d (scanSplit d p q start cs).2.2 false true r') := by
  induction cs with
  | nil =>
    intro p q start rem h
    simp only [scanSplit, List.nil_append] at h
    rw [← h]
    rfl
  | cons c rest ih =>
    intro p q start rem h
    simp only [scanSplit] at h ⊢
    simp only [countBreaks]
    cases hbr : (c == d && (!((start && c == quoteChar) || q) || p == some quoteChar)) with
    | true =>
      simp only [hbr, cond_true] at h ⊢
      simp only [List.nil_append] at h
      rw [← h]
    | false =>
      simp only [hbr, cond_false] at h ⊢
      simp only [List.cons_append, List.cons.injEq] at h
      exact ih (some c) ((start && c == quoteChar) || q) false rem h.2

theorem countBreaks_split_nil (d : Char) (cs : List Char) (p : Option Char)
    (q start : Bool) (h : cs = (scanSplit d p q start cs).1 ++ []) :
    countBreaks d p q start cs = 0 :=
  countBreaks_split d cs p q start [] h

theorem countBreaks_split_cons (d : Char) (cs : List Char) (p : Option Char)
    (q start : Bool) (c : Char) (r' : List Char)
    (h : cs = (scanSplit d p q start cs).1 ++ c :: r') :
    countBreaks d p q start cs
      = 1 + countBreaks d (scanSplit d p q start cs).2.2 false true r' :=
  countBreaks_split d cs p q start (c :: r') h

/-! Full-run lemmas: literal runs always succeed and count fields; a
non-literal run is the literal run followed by the unescaping rule. -/

theorem run_lit : ∀ (fuel : Nat) (s : CsvRow) (r : Except Unit (List (List Char))),
    Synced s → s.literal = true → s.line ≠ [] → runFuel fuel s = some r →
    ∃ fs, r = .ok fs ∧
      fs.length
        = countBreaks s.delimiter s.prev_char false true (s.line.drop s.char_pos) + 1 := by
  intro fuel
  induction fuel with
  | zero => intro s r _ _ _ h; simp [runFuel] at h
  | succ fuel ih =>
    intro s r hs hlit hl h
    have hnext0 := next_spec s hs hl
    rw [hlit] at hnext0
    simp only [cond_true] at hnext0
    rw [runFuel_step_some fuel hnext0] at h
    obtain ⟨r0, hr0, hmap⟩ := Option.map_eq_some'.mp h
    obtain ⟨rem, hsplit, hlast, hrem⟩ :=
      scanSplit_split s.delimiter (s.line.drop s.char_pos) s.prev_char false true
    have hsplit' : s.line.drop s.char_pos = (fieldSplit s).1 ++ rem := hsplit
    cases hrem with
    | inl hre =>
      subst hre
      rw [List.append_nil] at hsplit'
      have hdone := advance_scan_done hs hsplit'
      cases fuel with
      | zero => simp [runFuel] at hr0
      | succ fuel' =>
        have hnone : (advance s).next = .ok none :=
          next_past (by rw [advance_line]; exact hdone)
        rw [runFuel_step_none fuel' hnone] at hr0
        have hr0' : r0 = .ok [] := by
          injection hr0 with h2
          exact h2.symm
        refine ⟨[(fieldSplit s).1], ?_, ?_⟩
        · rw [← hmap, hr0']
          rfl
        · rw [countBreaks_split_nil s.delimiter (s.line.drop s.char_pos) s.prev_char
            false true hsplit]
          rfl
    | inr hre =>
      obtain ⟨r', hre⟩ := hre
      rw [hre] at hsplit'
      obtain ⟨hs', hdrop⟩ := advance_scan_more hs hsplit'
      obtain ⟨fs0, hfs0, hlen0⟩ := ih (advance s) r0 hs' hlit
        (by rw [advance_line]; exact hl) hr0
      refine ⟨(fieldSplit s).1 :: fs0, ?_, ?_⟩
      · rw [← hmap, hfs0]
        rfl
      · simp only [List.length_cons]
        rw [countBreaks_split_cons s.delimiter (s.line.drop s.char_pos) s.prev_char
          false true s.delimiter r' hsplit']
        have hlen0' : fs0.length = countBreaks s.delimiter (fieldSplit s).2.2 false true r' + 1 := by
          rw [← hdrop]
          exact hlen0
        simp only [fieldSplit] at hlen0'
        omega

theorem run_unesc : ∀ (fuel : Nat) (s : CsvRow) (fs : List (List Char)),
    Synced s → s.literal = false → s.line ≠ [] →
    runFuel fuel { s with literal := true } = some (.ok fs) →
    runFuel fuel s = some (unescapeAll fs) := by
  intro fuel
  induction fuel with
  | zero => intro s fs _ _ _ h; simp [runFuel] at h
  | succ fuel ih =>
    intro s fs hs hlit hl h
    have hsL : Synced { s with literal := true } := hs
    have hlL : ({ s with literal := true } : CsvRow).line ≠ [] := hl
    have hnextL := next_spec { s with literal := true } hsL hlL
    simp only [cond_true] at hnextL
    have hnextL' : ({ s with literal := true } : CsvRow).next
        = .ok (some ((fieldSplit s).1,
            { advance s with literal := true })) := hnextL
    rw [runFuel_step_some fuel hnextL'] at h
    obtain ⟨r0, hr0, hmap⟩ := Option.map_eq_some'.mp h
    have hnextN := next_spec s hs hl
    rw [hlit] at hnextN
    simp only [cond_false] at hnextN
    obtain ⟨fs0, hfs0⟩ : ∃ fs0, r0 = .ok fs0 ∧ fs = (fieldSplit s).1 :: fs0 := by
      cases r0 with
      | error e => simp [Except.map] at hmap
      | ok l =>
        refine ⟨l, rfl, ?_⟩
        simp only [Except.map, Except.ok.injEq] at hmap
        exact hmap.symm
    obtain ⟨hr0ok, hfscons⟩ := hfs0
    subst hr0ok
    obtain ⟨rem, hsplit, hlast, hrem⟩ :=
      scanSplit_split s.delimiter (s.line.drop s.char_pos) s.prev_char false true
    have hsplit' : s.line.drop s.char_pos = (fieldSplit s).1 ++ rem := hsplit
    cases hu : unescape (fieldSplit s).1 with
    | error e =>
      cases e
      have hnerr : s.next = .error () := by
        rw [hnextN, hu]
        rfl
      rw [runFuel_step_error fuel hnerr, hfscons]
      have : unescapeAll ((fieldSplit s).1 :: fs0) = .error () := by
        simp only [unescapeAll, hu]
      rw [this]
    | ok g0 =>
      have hnok : s.next = .ok (some (g0, advance s)) := by
        rw [hnextN, hu]
        rfl
      rw [runFuel_step_some fuel hnok, hfscons]
      cases hrem with
      | inl hre =>
        subst hre
        rw [List.append_nil] at hsplit'
        have hdone := advance_scan_done hs hsplit'
        cases fuel with
        | zero => simp [runFuel] at hr0
        | succ fuel' =>
          have hnoneL : ({ advance s with literal := true } : CsvRow).next = .ok none :=
            next_past hdone
          rw [runFuel_step_none fuel' hnoneL] at hr0
          have hfs0nil : fs0 = [] := by
            injection hr0 with h2
            injection h2 with h3
            exact h3.symm
          subst hfs0nil
          have hnoneN : (advance s).next = .ok none := next_past hdone
          rw [runFuel_step_none fuel' hnoneN]
          simp only [unescapeAll, hu, Option.map_some', Except.map]
      | inr hre =>
        obtain ⟨r', hre⟩ := hre
        rw [hre] at hsplit'
        obtain ⟨hs', hdrop⟩ := advance_scan_more hs hsplit'
        have hih := ih (advance s) fs0 hs' hlit (by rw [advance_line]; exact hl) hr0
        rw [hih]
        simp only [Option.map_some', unescapeAll, hu]
        cases h2 : unescapeAll fs0 with
        | error e => simp [Except.map]
        | ok gs => simp [Except.map]

/-! Facts about quote doubling and collapsing. -/

theorem doubleQuotes_eq_self {v : List Char}
    (h : containsChar v quoteChar = false) : doubleQuotes v = v := by
  induction v with
  | nil => rfl
  | cons c t ih =>
    simp only [containsChar, Bool.or_eq_false_iff] at h
    simp only [doubleQuotes, h.1, cond_false]
    rw [ih h.2]

theorem containsQQ_cons_of_tail {c : Char} {l : List Char}
    (h : containsQQ l = true) : containsQQ (c :: l) = true := by
  cases l with
  | nil => simp [containsQQ] at h
  | cons x t =>
    simp only [containsQQ, Bool.or_eq_true]
    right
    exact h

theorem containsQQ_doubleQuotes {v : List Char}
    (h : containsChar v quoteChar = true) :
    containsQQ (doubleQuotes v) = true := by
  induction v with
  | nil => simp [containsChar] at h
  | cons c t ih =>
    simp only [containsChar, Bool.or_eq_true] at h
    cases hc : (c == quoteChar) with
    | true =>
      simp only [doubleQuotes, hc, cond_true]
      simp [containsQQ]
    | false =>
      have ht : containsChar t quoteChar = true := by
        cases h with
        | inl h1 => rw [h1] at hc; cases hc
        | inr h2 => exact h2
      simp only [doubleQuotes, hc, cond_false]
      exact containsQQ_cons_of_tail (ih ht)

theorem doubleQuotes_eq_nil {t : List Char} (h : doubleQuotes t = []) : t = [] := by
  cases t with
  | nil => rfl
  | cons y r =>
    simp only [doubleQuotes] at h
    cases hy : (y == quoteChar) with
    | true => rw [hy] at h; simp at h
    | false => rw [hy] at h; simp at h

theorem replaceQQ_doubleQuotes (v : List Char) :
    replaceQQ (doubleQuotes v) = v := by
  induction v with
  | nil => rfl
  | cons c t ih =>
    cases hc : (c == quoteChar) with
    | true =>
      have hcq : c = quoteChar := eq_of_beq hc
      subst hcq
      simp only [doubleQuotes, hc, cond_true]
      simp only [replaceQQ, beq_self_eq_true, Bool.and_self, cond_true]
      rw [ih]
    | false =>
      simp only [doubleQuotes, hc, cond_false]
      cases hd : doubleQuotes t with
      | nil =>
        have ht : t = [] := doubleQuotes_eq_nil hd
        subst ht
        rfl
      | cons x r =>
        have step : replaceQQ (c :: x :: r) = c :: replaceQQ (x :: r) := by
          simp only [replaceQQ, hc, Bool.false_and, cond_false]
        rw [step, ← hd, ih]

theorem containsChar_of_containsQQ {v : List Char}
    (h : containsQQ v = true) : containsChar v quoteChar = true := by
  induction v with
  | nil => simp [containsQQ] at h
  | cons c t ih =>
    cases t with
    | nil => simp [containsQQ] at h
    | cons x r =>
      simp only [containsQQ, Bool.or_eq_true, Bool.and_eq_true] at h
      simp only [containsChar, Bool.or_eq_true]
      cases h with
      | inl h1 => left; exact h1.1
      | inr h2 =>
        right
        have h3 := ih h2
        simpa [containsChar] using h3

theorem collapseQQ_doubleQuotes (v : List Char) :
    collapseQQ (doubleQuotes v) = v := by
  unfold collapseQQ
  cases hc : containsQQ (doubleQuotes v) with
  | true =>
    simp only [cond_true]
    exact replaceQQ_doubleQuotes v
  | false =>
    simp only [cond_false]
    cases hq : containsChar v quoteChar with
    | true => rw [containsQQ_doubleQuotes hq] at hc; cases hc
    | false => exact doubleQuotes_eq_self hq

theorem collapseQQ_eq_self {v : List Char}
    (h : containsChar v quoteChar = false) : collapseQQ v = v := by
  unfold collapseQQ
  cases hc : containsQQ v with
  | true => rw [containsChar_of_containsQQ hc] at h; cases h
  | false => simp only [cond_false]

/-! Unescaping the two shapes `escape` produces. -/

theorem unescape_wrapped (v : List Char) :
    unescape (quoteChar :: doubleQuotes v ++ [quoteChar]) = .ok v := by
  unfold unescape
  have hh : ((quoteChar :: doubleQuotes v ++ [quoteChar]).head? == some quoteChar)
      = true := by simp
  have he : endsWithQuote (quoteChar :: doubleQuotes v ++ [quoteChar]) = true := by
    have := endsWithQuote_concat (quoteChar :: doubleQuotes v)
    simpa using this
  rw [hh, he]
  simp only [Bool.and_self, cond_true]
  rw [byteSlice_strip (doubleQuotes v)]
  show Except.ok (collapseQQ (doubleQuotes v)) = Except.ok v
  rw [collapseQQ_doubleQuotes]

theorem unescape_plain {v : List Char}
    (h : containsChar v quoteChar = false) : unescape v = .ok v := by
  unfold unescape
  have hh : (v.head? == some quoteChar) = false := by
    cases v with
    | nil => simp
    | cons c t =>
      simp only [containsChar, Bool.or_eq_false_iff] at h
      simp [h.1]
  rw [hh]
  simp only [Bool.false_and, cond_false]
  rw [collapseQQ_eq_self h]

/-! How a field scan traverses an escaped value. -/

theorem quote_beq_d_false {d : Char} (hdq : (d == quoteChar) = false) :
    (quoteChar == d) = false := by
  cases hqc : (quoteChar == d) with
  | false => rfl
  | true =>
    rw [eq_of_beq hqc] at hdq
    simp at hdq

theorem hasQD_tail {d x : Char} {v' : List Char}
    (h : hasQD d (x :: v') = false) : hasQD d v' = false := by
  cases v' with
  | nil => rfl
  | cons y t =>
    simp only [hasQD, Bool.or_eq_false_iff] at h
    exact h.2

/-- A scan that is inside quotes passes over the doubled form of `v`
without stopping, provided `v` has no quote-then-delimiter pair and does
not start with the delimiter right after a quote. -/
theorem scanSplit_dq (d : Char) (hdq : (d == quoteChar) = false) (v : List Char) :
    ∀ (p : Option Char) (rest : List Char),
    hasQD d v = false →
    (p = some quoteChar → v.head? ≠ some d) →
    scanSplit d p true false (doubleQuotes v ++ rest)
      = (doubleQuotes v ++ (scanSplit d (lastOr p v) true false rest).1,
         (scanSplit d (lastOr p v) true false rest).2.1,
         (scanSplit d (lastOr p v) true false rest).2.2) := by
  induction v with
  | nil =>
    intro p rest _ _
    simp only [doubleQuotes, List.nil_append, lastOr_nil]
  | cons x v' ih =>
    intro p rest hqd hhd
    have hqd' : hasQD d v' = false := hasQD_tail hqd
    cases hx : (x == quoteChar) with
    | true =>
      have hxq : x = quoteChar := eq_of_beq hx
      subst hxq
      have hhd' : (some quoteChar : Option Char) = some quoteChar →
          v'.head? ≠ some d := by
        intro _
        cases v' with
        | nil => simp
        | cons y t =>
          simp only [hasQD, beq_self_eq_true, Bool.true_and,
            Bool.or_eq_false_iff] at hqd
          simp only [List.head?_cons, ne_eq, Option.some.injEq]
          intro hyd
          have h1 := hqd.1
          rw [hyd] at h1
          simp at h1
      simp only [doubleQuotes, beq_self_eq_true, cond_true]
      simp only [List.cons_append, scanSplit, quote_beq_d_false hdq,
        Bool.false_and, Bool.false_or, cond_false, List.append_eq]
      rw [ih (some quoteChar) rest hqd' hhd']
      simp [List.cons_append, lastOr_cons, List.append_eq]
    | false =>
      have hhd'' : (some x : Option Char) = some quoteChar →
          v'.head? ≠ some d := by
        intro hxx
        have : x = quoteChar := by injection hxx
        rw [this] at hx
        simp at hx
      have hbrk : (x == d && (p == some quoteChar)) = false := by
        cases hxd : (x == d) with
        | false => simp
        | true =>
          cases hp : (p == some quoteChar) with
          | false => simp
          | true =>
            exfalso
            apply hhd (eq_of_beq hp)
            simp [eq_of_beq hxd]
      simp only [doubleQuotes, hx, cond_false]
      simp only [List.cons_append, scanSplit, Bool.false_and, Bool.false_or,
        Bool.not_true, hbrk, cond_false, List.append_eq]
      rw [ih (some x) rest hqd' hhd'']
      simp [lastOr_cons, List.append_eq]

/-- A fresh scan over a whole quoted piece `"…"` followed by a delimiter
or the end of the line consumes exactly the piece and reports it quoted. -/
theorem scanSplit_wrapped (d : Char) (hdq : (d == quoteChar) = false) (v : List Char)
    (p : Option Char) (rest : List Char)
    (hrest : rest = [] ∨ ∃ r', rest = d :: r')
    (hqd : hasQD d v = false) (hhd : v.head? ≠ some d) :
    scanSplit d p false true ((quoteChar :: doubleQuotes v ++ [quoteChar]) ++ rest)
      = (quoteChar :: doubleQuotes v ++ [quoteChar], true, some quoteChar) := by
  have hq1 : ((quoteChar :: doubleQuotes v ++ [quoteChar]) ++ rest)
      = quoteChar :: (doubleQuotes v ++ ([quoteChar] ++ rest)) := by
    simp [List.cons_append, List.append_assoc]
  rw [hq1]
  simp only [scanSplit, beq_self_eq_true, Bool.true_and, Bool.or_false,
    quote_beq_d_false hdq, Bool.false_and, cond_false]
  rw [scanSplit_dq d hdq v (some quoteChar) ([quoteChar] ++ rest) hqd
    (fun _ => hhd)]
  have hclose : scanSplit d (lastOr (some quoteChar) v) true false
      ([quoteChar] ++ rest) = ([quoteChar], true, some quoteChar) := by
    simp only [List.cons_append, List.nil_append, scanSplit,
      quote_beq_d_false hdq, Bool.false_and, Bool.false_or, cond_false]
    cases hrest with
    | inl h =>
      subst h
      simp [scanSplit]
    | inr h =>
      obtain ⟨r', h⟩ := h
      subst h
      simp [scanSplit]
  rw [hclose]
  simp [List.cons_append]

/-- A fresh scan over an unquoted piece (no delimiter, no quote in `v`)
followed by a delimiter or the end of the line consumes exactly `v`. -/
theorem scanSplit_plain (d : Char) (hdq : (d == quoteChar) = false) (v : List Char) :
    ∀ (p : Option Char) (start : Bool) (rest : List Char),
    containsChar v d = false → containsChar v quoteChar = false →
    (rest = [] ∨ ∃ r', rest = d :: r') →
    scanSplit d p false start (v ++ rest) = (v, false, lastOr p v) := by
  induction v with
  | nil =>
    intro p start rest _ _ hrest
    cases hrest with
    | inl h =>
      subst h
      simp [scanSplit, lastOr_nil]
    | inr h =>
      obtain ⟨r', h⟩ := h
      subst h
      simp only [List.nil_append, scanSplit, hdq, Bool.and_false, Bool.false_or,
        Bool.not_false, beq_self_eq_true, Bool.true_and, Bool.true_or, cond_true,
        lastOr_nil]
  | cons c v' ih =>
    intro p start rest hd hq hrest
    simp only [containsChar, Bool.or_eq_false_iff] at hd hq
    simp only [List.cons_append, scanSplit, hq.1, hd.1, Bool.and_false,
      Bool.or_false, Bool.false_and, cond_false, List.append_eq]
    rw [ih (some c) false rest hd.2 hq.2 hrest]
    simp [lastOr_cons]

/-- Dispatching on the two shapes of `escape`: a fresh scan consumes the
escaped piece exactly, and unescaping the captured slice gives back `v`. -/
theorem escape_scan (d : Char) (hdq : (d == quoteChar) = false) (v : List Char)
    (p : Option Char) (rest : List Char)
    (hrest : rest = [] ∨ ∃ r', rest = d :: r')
    (hqd : hasQD d v = false) (hhd : v.head? ≠ some d) :
    (scanSplit d p false true (escape v d ++ rest)).1 = escape v d
    ∧ unescape (scanSplit d p false true (escape v d ++ rest)).1 = .ok v := by
  unfold escape
  cases hc : (containsChar v d || containsChar v quoteChar) with
  | true =>
    simp only [cond_true]
    rw [scanSplit_wrapped d hdq v p rest hrest hqd hhd]
    exact ⟨rfl, unescape_wrapped v⟩
  | false =>
    simp only [cond_false]
    simp only [Bool.or_eq_false_iff] at hc
    rw [scanSplit_plain d hdq v p true rest hc.1 hc.2 hrest]
    exact ⟨rfl, unescape_plain hc.2⟩

theorem escape_ne_nil {v : List Char} {d : Char} (h : v ≠ []) : escape v d ≠ [] := by
  unfold escape
  cases hc : (containsChar v d || containsChar v quoteChar) with
  | true => simp
  | false => simpa using h

/-- The round-trip workhorse: from a state whose cursor sits at the start
of the joined escaped row (an arbitrary consumed prefix `pre` behind it),
the non-literal tokenizer yields exactly the original values. -/
theorem run_pieces (d : Char) (hdq : (d == quoteChar) = false) :
    ∀ (vs : List (List Char)) (fuel : Nat) (s : CsvRow) (pre : List Char),
    s.literal = false → s.delimiter = d →
    s.line = pre ++ joinEscaped d vs →
    s.char_pos = pre.length → s.byte_pos = utf8Len pre →
    (vs = [] → pre = []) →
    ¬(pre = [] ∧ vs = [[]]) →
    (∀ v ∈ vs, hasQD d v = false ∧ v.head? ≠ some d) →
    vs.length + 2 ≤ fuel →
    runFuel fuel s = some (.ok vs) := by
  intro vs
  induction vs with
  | nil =>
    intro fuel s pre hlit hdel hline hcp hbp hnilpre _ _ hfuel
    have hpre : pre = [] := hnilpre rfl
    subst hpre
    have hln : s.line = [] := by
      rw [hline]
      rfl
    cases fuel with
    | zero => omega
    | succ f => rw [runFuel_step_none f (next_nil hln)]
  | cons v vs' ih =>
    intro fuel s pre hlit hdel hline hcp hbp _ hnotempty hvals hfuel
    have hv : hasQD d v = false ∧ v.head? ≠ some d :=
      hvals v (List.mem_cons_self v vs')
    have hvs' : ∀ w ∈ vs', hasQD d w = false ∧ w.head? ≠ some d :=
      fun w hw => hvals w (List.mem_cons_of_mem v hw)
    have hsync : Synced s := by
      constructor
      · rw [hcp, hline]
        simp [List.length_append]
      · rw [hbp, hcp, hline]
        have ht := take_app_len pre 0 (joinEscaped d (v :: vs'))
        simp only [Nat.add_zero, List.take_zero, List.append_nil] at ht
        rw [ht]
    cases vs' with
    | nil =>
      have hdrop : s.line.drop s.char_pos = escape v d ++ [] := by
        rw [hline, hcp, List.append_nil]
        have hd0 := drop_app_len pre 0 (joinEscaped d [v])
        simp only [Nat.add_zero, List.drop_zero] at hd0
        exact hd0
      have hlne : s.line ≠ [] := by
        rw [hline]
        intro hh
        obtain ⟨h1, h2⟩ := List.append_eq_nil.mp hh
        have hvnil : v = [] := by
          by_contra hvn
          exact escape_ne_nil hvn h2
        exact hnotempty ⟨h1, by rw [hvnil]⟩
      have hfs := escape_scan d hdq v s.prev_char [] (Or.inl rfl) hv.1 hv.2
      have hfs1 : (fieldSplit s).1 = escape v d := by
        unfold fieldSplit
        rw [hdel, hdrop]
        exact hfs.1
      have hunesc : unescape (fieldSplit s).1 = .ok v := by
        unfold fieldSplit
        rw [hdel, hdrop]
        exact hfs.2
      have hnext : s.next = .ok (some (v, advance s)) := by
        rw [next_spec s hsync hlne, hlit]
        simp only [cond_false]
        rw [hunesc]
        rfl
      have hdone : utf8Len s.line < (advance s).byte_pos := by
        apply advance_scan_done hsync
        rw [hdrop, List.append_nil, hfs1]
      cases fuel with
      | zero => omega
      | succ f =>
        rw [runFuel_step_some f hnext]
        cases f with
        | zero => omega
        | succ f' =>
          rw [runFuel_step_none f' (next_past (s := advance s) hdone)]
          rfl
    | cons w t =>
      have hdrop : s.line.drop s.char_pos
          = escape v d ++ (d :: joinEscaped d (w :: t)) := by
        rw [hline, hcp]
        have hd0 := drop_app_len pre 0 (joinEscaped d (v :: w :: t))
        simp only [Nat.add_zero, List.drop_zero] at hd0
        rw [hd0]
        rfl
      have hlne : s.line ≠ [] := by
        rw [hline]
        intro hh
        have := congrArg List.length hh
        simp only [List.length_append, List.length_nil] at this
        have hj : joinEscaped d (v :: w :: t)
            = escape v d ++ d :: joinEscaped d (w :: t) := rfl
        rw [hj] at this
        simp [List.length_append] at this
      have hfs := escape_scan d hdq v s.prev_char (d :: joinEscaped d (w :: t))
        (Or.inr ⟨_, rfl⟩) hv.1 hv.2
      have hfs1 : (fieldSplit s).1 = escape v d := by
        unfold fieldSplit
        rw [hdel, hdrop]
        exact hfs.1
      have hunesc : unescape (fieldSplit s).1 = .ok v := by
        unfold fieldSplit
        rw [hdel, hdrop]
        exact hfs.2
      have hnext : s.next = .ok (some (v, advance s)) := by
        rw [next_spec s hsync hlne, hlit]
        simp only [cond_false]
        rw [hunesc]
        rfl
      have hmore := advance_scan_more hsync
        (by rw [hdrop, hfs1, hdel] :
          s.line.drop s.char_pos
            = (fieldSplit s).1 ++ s.delimiter :: joinEscaped d (w :: t))
      obtain ⟨hs', hdrop'⟩ := hmore
      cases fuel with
      | zero => omega
      | succ f =>
        rw [runFuel_step_some f hnext]
        have hrec := ih f (advance s) (pre ++ escape v d ++ [d]) hlit hdel
          (by
            rw [advance_line, hline]
            have hj : joinEscaped d (v :: w :: t)
                = escape v d ++ d :: joinEscaped d (w :: t) := rfl
            rw [hj]
            simp [List.append_assoc, List.cons_append])
          (by
            rw [advance_char_pos, hcp, hfs1]
            simp [List.length_append]
            omega)
          (by
            rw [advance_byte_pos, hbp, hfs1, hdel]
            simp [utf8Len_append, utf8Len_cons, utf8Len_nil]
            omega)
          (by intro h; cases h)
          (by
            intro hcontra
            obtain ⟨h1, _⟩ := hcontra
            have := congrArg List.length h1
            simp [List.length_append] at this)
          hvs'
          (by
            simp only [List.length_cons] at hfuel ⊢
            omega)
        rw [hrec]
        rfl

/-! Tokenize-level consequences. -/

theorem tokenize_nil (d : Char) (lit : Bool) : tokenize [] d lit = .ok [] := rfl

theorem tokenize_lit_count (line : List Char) (d : Char) (hl : line ≠ []) :
    ∃ fs, tokenize line d true = .ok fs
      ∧ fs.length = countBreaks d none false true line + 1 := by
  have hsy : Synced (CsvRow.new line d true) := synced_new line d true
  have hsome := runFuel_suff (utf8Len line + 2) (CsvRow.new line d true)
    (Or.inl hsy) (by simp [CsvRow.new]) (by omega)
  obtain ⟨r, hr⟩ := Option.isSome_iff_exists.mp hsome
  obtain ⟨fs, hfs, hlen⟩ := run_lit (utf8Len line + 2) (CsvRow.new line d true) r
    hsy rfl hl hr
  refine ⟨fs, ?_, ?_⟩
  · have := run_of_runFuel (Or.inl hsy) hr
    rw [tokenize, this, hfs]
  · simpa [CsvRow.new] using hlen

theorem tokenize_false_bind (line : List Char) (d : Char) :
    tokenize line d false = (tokenize line d true).bind (fun fs => unescapeAll fs) := by
  by_cases hl : line = []
  · subst hl
    rfl
  · have hsyT : Synced (CsvRow.new line d true) := synced_new line d true
    have hsyF : Synced (CsvRow.new line d false) := synced_new line d false
    have hsome := runFuel_suff (utf8Len line + 2) (CsvRow.new line d true)
      (Or.inl hsyT) (by simp [CsvRow.new]) (by omega)
    obtain ⟨r, hr⟩ := Option.isSome_iff_exists.mp hsome
    obtain ⟨fs, hfs, _⟩ := run_lit (utf8Len line + 2) (CsvRow.new line d true) r
      hsyT rfl hl hr
    have hrT : runFuel (utf8Len line + 2) (CsvRow.new line d true) = some (.ok fs) := by
      rw [hr, hfs]
    have hrF := run_unesc (utf8Len line + 2) (CsvRow.new line d false) fs
      hsyF rfl hl hrT
    have heT : tokenize line d true = .ok fs := run_of_runFuel (Or.inl hsyT) hrT
    have heF : tokenize line d false = unescapeAll fs :=
      run_of_runFuel (Or.inl hsyF) hrF
    rw [heT, heF]
    rfl

theorem unescapeAll_length : ∀ (fs gs : List (List Char)),
    unescapeAll fs = .ok gs → gs.length = fs.length := by
  intro fs
  induction fs with
  | nil =>
    intro gs h
    simp only [unescapeAll, Except.ok.injEq] at h
    rw [← h]
  | cons f t ih =>
    intro gs h
    unfold unescapeAll at h
    cases hu : unescape f with
    | error e => rw [hu] at h; cases h
    | ok g =>
      rw [hu] at h
      cases ht : unescapeAll t with
      | error e => rw [ht] at h; cases h
      | ok gs0 =>
        rw [ht] at h
        have : g :: gs0 = gs := by injection h
        rw [← this]
        simp [ih gs0 ht]

/-- The first byte slice taken by `next` (under the cursor invariant) is
defined and returns exactly the characters the scan consumed. -/
theorem slice_of_synced (s : CsvRow) (hs : Synced s) :
    byteSlice s.line s.byte_pos
      (s.byte_pos + (scanLoop s.delimiter s.prev_char (s.line.drop s.char_pos) 0 false).1)
      = some (fieldSplit s).1 := by
  obtain ⟨hcp, hbp⟩ := hs
  obtain ⟨rem, hsplit, hlast, hrem⟩ :=
    scanSplit_split s.delimiter (s.line.drop s.char_pos) s.prev_char false true
  have hsplit' : s.line.drop s.char_pos = (fieldSplit s).1 ++ rem := hsplit
  have hline : s.line = s.line.take s.char_pos ++ (fieldSplit s).1 ++ rem := by
    rw [List.append_assoc, ← hsplit', List.take_append_drop]
  rw [scanLoop_eq_split s.delimiter (s.line.drop s.char_pos) s.prev_char false 0 true
    (by simp)]
  have h1 := byteSlice_spec (s.line.take s.char_pos) (fieldSplit s).1 rem
  rw [← hline] at h1
  rw [hbp]
  simpa [fieldSplit] using h1

/-! Helpers for the `escape` characterisation. -/

theorem containsChar_iff (v : List Char) (c : Char) :
    containsChar v c = true ↔ c ∈ v := by
  induction v with
  | nil => simp [containsChar]
  | cons x t ih =>
    simp only [containsChar, Bool.or_eq_true, beq_iff_eq, List.mem_cons, ih]
    constructor
    · intro h
      cases h with
      | inl h1 => exact Or.inl h1.symm
      | inr h2 => exact Or.inr h2
    · intro h
      cases h with
      | inl h1 => exact Or.inl h1.symm
      | inr h2 => exact Or.inr h2

theorem doubleQuotes_foldr (v : List Char) :
    doubleQuotes v = v.foldr (fun c acc =>
      if c = quoteChar then quoteChar :: quoteChar :: acc else c :: acc) [] := by
  induction v with
  | nil => rfl
  | cons c t ih =>
    simp only [doubleQuotes, List.foldr_cons, ← ih]
    by_cases hc : c = quoteChar
    · rw [if_pos hc]
      have : (c == quoteChar) = true := beq_iff_eq.mpr hc
      rw [this, cond_true]
    · rw [if_neg hc]
      have : (c == quoteChar) = false := beq_eq_false_iff_ne.mpr hc
      rw [this, cond_false]

theorem doubleQuotes_length (v : List Char) :
    v.length ≤ (doubleQuotes v).length := by
  induction v with
  | nil => simp [doubleQuotes]
  | cons c t ih =>
    simp only [doubleQuotes]
    cases hc : (c == quoteChar) with
    | true => simp only [cond_true, List.length_cons]; omega
    | false => simp only [cond_false, List.length_cons]; omega

theorem escape_ne_self {v : List Char} {d : Char}
    (h : (containsChar v d || containsChar v quoteChar) = true) :
    escape v d ≠ v := by
  intro hEq
  unfold escape at hEq
  rw [h, cond_true] at hEq
  have hlen := congrArg List.length hEq
  have hdql := doubleQuotes_length v
  simp only [List.length_cons, List.length_append, List.length_nil] at hlen
  omega

/-! The claims. -/

/-- C1: the claim says every call to `next` returns a defined result with
no panic path even for malformed quoting.  The code violates this: on the
line consisting of a single quote character, non-literal mode treats the
lone-quote slice as quoted and the stripping slice `result[1..0]` panics
(a reversed range).  This theorem evaluates the embedded code at that
failing input. -/
theorem c1_panic_on_lone_quote : tokenize [quoteChar] ',' false = .error () := rfl

/-- C2 (counterexample): the round-trip fails as stated.  The singleton
sequence of one empty value joins to the empty line, which tokenizes to
zero fields; a value starting with the delimiter panics; a value
containing a quote immediately followed by the delimiter is misparsed;
and the quote character as delimiter breaks the round-trip as well. -/
theorem c2_counterexample :
    tokenize (joinEscaped ',' [[]]) ',' false ≠ .ok [[]]
    ∧ tokenize (joinEscaped ',' [[',', 'x']]) ',' false = .error ()
    ∧ tokenize (joinEscaped ',' [['a', quoteChar, ',', 'b']]) ',' false
        ≠ .ok [['a', quoteChar, ',', 'b']]
    ∧ tokenize (joinEscaped quoteChar [['x', quoteChar, 'y']]) quoteChar false
        ≠ .ok [['x', quoteChar, 'y']] := by
  refine ⟨?_, rfl, ?_, ?_⟩
  · intro h
    rw [show tokenize (joinEscaped ',' [[]]) ',' false
      = (.ok [] : Except Unit (List (List Char))) from rfl] at h
    simp at h
  · intro h
    rw [show tokenize (joinEscaped ',' [['a', quoteChar, ',', 'b']]) ',' false
      = (.ok [['a', quoteChar], ['b', quoteChar]] : Except Unit (List (List Char)))
      from rfl] at h
    simp at h
  · intro h
    rw [show tokenize (joinEscaped quoteChar [['x', quoteChar, 'y']]) quoteChar false
      = (.ok [['x'], ['y'], []] : Except Unit (List (List Char))) from rfl] at h
    simp at h

/-- C2 (amended): for every delimiter other than the quote character and
every sequence of line-break-free values other than the lone empty value,
provided no value starts with the delimiter and no value contains a quote
character immediately followed by the delimiter, tokenizing the joined
escaped row in non-literal mode reproduces the original sequence. -/
theorem c2_roundtrip (d : Char) (vs : List (List Char))
    (hd : d ≠ quoteChar) (hne : vs ≠ [[]])
    (hv : ∀ v ∈ vs, containsChar v '\n' = false ∧ containsChar v '\r' = false
      ∧ hasQD d v = false ∧ v.head? ≠ some d) :
    tokenize (joinEscaped d vs) d false = .ok vs := by
  have hdq : (d == quoteChar) = false := beq_eq_false_iff_ne.mpr hd
  have hrun := run_pieces d hdq vs (vs.length + 2)
    (CsvRow.new (joinEscaped d vs) d false) []
    rfl rfl (by simp [CsvRow.new]) rfl rfl
    (fun _ => rfl) (fun h => hne h.2)
    (fun v hvm => ⟨(hv v hvm).2.2.1, (hv v hvm).2.2.2⟩) (le_refl _)
  exact run_of_runFuel (Or.inl (synced_new _ _ _)) hrun

/-- C2 (witness). -/
theorem c2_roundtrip_witness :
    (',' : Char) ≠ quoteChar
    ∧ ([['a'], ['x', quoteChar, 'y'], []] : List (List Char)) ≠ [[]]
    ∧ tokenize (joinEscaped ',' [['a'], ['x', quoteChar, 'y'], []]) ',' false
        = .ok [['a'], ['x', quoteChar, 'y'], []] :=
  ⟨by decide, by decide,
   c2_roundtrip ',' [['a'], ['x', quoteChar, 'y'], []] (by decide) (by decide)
     (by decide)⟩

/-- C3 (counterexample): the claim says a delimiter immediately following
a lone-quote field does not terminate the scan; in literal mode the code
shows it does terminate: the line `",a` yields the lone quote and `a` as
two fields. -/
theorem c3_counterexample :
    tokenize [quoteChar, ',', 'a'] ',' true = .ok [[quoteChar], ['a']] := rfl

/-- C3 (amended): in the scan loop a delimiter seen while quoted
terminates the field exactly when the previously consumed character is a
quote — with no minimum-length condition: a field whose only consumed
character is a quote is terminated by an immediately following delimiter,
and a delimiter whose predecessor is not a quote is consumed as content. -/
theorem c3_scan_break (d : Char) (rest : List Char) (bl : Nat) (p : Option Char)
    (hd : d ≠ quoteChar) (hp : p ≠ some quoteChar) :
    scanLoop d (some quoteChar) (d :: rest) bl true = (bl, true, some quoteChar)
    ∧ scanLoop d none (quoteChar :: d :: rest) 0 false = (1, true, some quoteChar)
    ∧ scanLoop d p (d :: rest) bl true
        = scanLoop d (some d) rest (bl + d.utf8Size) true := by
  have hdq : (d == quoteChar) = false := beq_eq_false_iff_ne.mpr hd
  have hpq : (p == some quoteChar) = false := beq_eq_false_iff_ne.mpr hp
  refine ⟨?_, ?_, ?_⟩
  · simp [scanLoop]
  · simp only [scanLoop, Nat.zero_add, beq_self_eq_true, Bool.and_true,
      Bool.true_and, Bool.or_false, quote_beq_d_false hdq, Bool.false_and,
      cond_false, quoteChar_utf8Size]
    simp [scanLoop]
  · simp only [scanLoop, Bool.or_true, Bool.not_true, hpq, Bool.false_or,
      beq_self_eq_true, Bool.true_and, Bool.and_false, cond_false]

/-- C3 (witness). -/
theorem c3_scan_break_witness :
    (',' : Char) ≠ quoteChar ∧ (some 'x' : Option Char) ≠ some quoteChar
    ∧ (scanLoop ',' (some quoteChar) [',', 'a'] 5 true = (5, true, some quoteChar)
      ∧ scanLoop ',' none (quoteChar :: ',' :: ['a']) 0 false
          = (1, true, some quoteChar)
      ∧ scanLoop ',' (some 'x') [',', 'a'] 5 true
          = scanLoop ',' (some ',') ['a'] (5 + Char.utf8Size ',') true) :=
  ⟨by decide, by decide, c3_scan_break ',' ['a'] 5 (some 'x') (by decide) (by decide)⟩

/-- C4 (counterexample): the claim says a slice that starts with a quote
but is not longer than one character is not treated as a quoted field.
On the line `",x` the captured slice is the lone quote, yet the code
treats it as quoted and the stripping slice panics in non-literal mode. -/
theorem c4_counterexample : tokenize [quoteChar, ',', 'x'] ',' false = .error () := rfl

/-- C4 (amended): after scanning, the field is treated as quoted (and
stripped in non-literal mode) exactly when the raw captured slice starts
with a quote AND ends with a quote — with no more-than-one-character
condition; consequently the one-character slice consisting of a lone
quote is treated as quoted and its stripping step faults. -/
theorem c4_quoted_iff (s : CsvRow) (hs : Synced s) (hl : s.line ≠ [])
    (hlit : s.literal = false) :
    s.next = (unescape (fieldSplit s).1).map (fun g => some (g, advance s))
    ∧ (∀ r : List Char, unescape r
        = (bif (r.head? == some quoteChar) && (r.getLast? == some quoteChar) then
            match byteSlice r 1 (utf8Len r - 1) with
            | none => Except.error ()
            | some r2 => Except.ok (collapseQQ r2)
          else Except.ok (collapseQQ r)))
    ∧ unescape [quoteChar] = .error () := by
  refine ⟨?_, fun r => rfl, rfl⟩
  rw [next_spec s hs hl, hlit]
  rfl

/-- C4 (witness). -/
theorem c4_quoted_iff_witness :
    (CsvRow.new [quoteChar, ',', 'x'] ',' false).next
      = (unescape (fieldSplit (CsvRow.new [quoteChar, ',', 'x'] ',' false)).1).map
          (fun g => some (g, advance (CsvRow.new [quoteChar, ',', 'x'] ',' false)))
    ∧ unescape [quoteChar] = .error () :=
  ⟨(c4_quoted_iff (CsvRow.new [quoteChar, ',', 'x'] ',' false)
      ⟨by decide, rfl⟩ (by decide) rfl).1,
   (c4_quoted_iff (CsvRow.new [quoteChar, ',', 'x'] ',' false)
      ⟨by decide, rfl⟩ (by decide) rfl).2.2⟩

/-- C5 (counterexample): the claim says an unclosed opening quote makes
the field run to the next delimiter and be yielded without any
unescaping.  The code instead runs past delimiters (the field `"x,y`
swallows the comma) and still collapses doubled quotes (`"a""b` yields
`"a"b`). -/
theorem c5_counterexample :
    tokenize [quoteChar, 'x', ',', 'y'] ',' false = .ok [[quoteChar, 'x', ',', 'y']]
    ∧ tokenize [quoteChar, 'a', quoteChar, quoteChar, 'b'] ',' false
        = .ok [[quoteChar, 'a', quoteChar, 'b']] := ⟨rfl, rfl⟩

/-- C5 (amended): a field whose raw captured slice does not end with a
quote (an orphaned opening quote) is not quote-stripped: the slice — which
runs to the next delimiter that immediately follows a consumed quote, or
to the end of the line — is yielded with the stray quote kept, but doubled
quotes inside it are still collapsed. -/
theorem c5_orphan_literal (s : CsvRow) (hs : Synced s) (hl : s.line ≠ [])
    (hlit : s.literal = false) (hend : endsWithQuote (fieldSplit s).1 = false) :
    s.next = .ok (some (collapseQQ (fieldSplit s).1, advance s)) := by
  rw [next_spec s hs hl, hlit]
  simp only [cond_false]
  unfold unescape
  rw [hend]
  simp [Except.map]

/-- C5 (witness). -/
theorem c5_orphan_literal_witness :
    (CsvRow.new [quoteChar, 'f', ',', 'm'] ',' false).next
      = .ok (some (collapseQQ (fieldSplit (CsvRow.new [quoteChar, 'f', ',', 'm'] ',' false)).1,
          advance (CsvRow.new [quoteChar, 'f', ',', 'm'] ',' false))) :=
  c5_orphan_literal (CsvRow.new [quoteChar, 'f', ',', 'm'] ',' false)
    ⟨by decide, rfl⟩ (by decide) rfl rfl

/-- C6 (counterexample): the claim says every non-empty line yields one
more field than its non-quoted delimiter count; on `a,"` (one unquoted
delimiter, so two fields predicted) the non-literal tokenizer panics on
the lone-quote field instead. -/
theorem c6_counterexample : tokenize ['a', ',', quoteChar] ',' false = .error () := rfl

/-- C6 (amended): the empty line yields zero fields (not one empty
field) in either mode; for every non-empty line the literal-mode
tokenizer succeeds and yields exactly one more field than the number of
scan-terminating ("non-quoted") delimiter occurrences — a trailing
delimiter opening one final empty field — and whenever the non-literal
tokenizer completes without fault it yields that same count. -/
theorem c6_field_count (d : Char) (lit : Bool) (line : List Char) (hl : line ≠ []) :
    tokenize [] d lit = .ok []
    ∧ (∃ fs, tokenize line d true = .ok fs
        ∧ fs.length = countBreaks d none false true line + 1)
    ∧ (∀ gs, tokenize line d false = .ok gs
        → gs.length = countBreaks d none false true line + 1) := by
  refine ⟨tokenize_nil d lit, tokenize_lit_count line d hl, ?_⟩
  intro gs hgs
  obtain ⟨fs, hfs, hlen⟩ := tokenize_lit_count line d hl
  have hbind := tokenize_false_bind line d
  rw [hfs, hgs] at hbind
  have h2 : unescapeAll fs = .ok gs := hbind.symm
  rw [unescapeAll_length fs gs h2, hlen]

/-- C6 (witness). -/
theorem c6_field_count_witness :
    (['a', ',', 'b'] : List Char) ≠ []
    ∧ (∃ fs, tokenize ['a', ',', 'b'] ',' true = .ok fs
        ∧ fs.length = countBreaks ',' none false true ['a', ',', 'b'] + 1)
    ∧ ([['a'], ['b']] : List (List Char)).length
        = countBreaks ',' none false true ['a', ',', 'b'] + 1 :=
  ⟨by decide,
   (c6_field_count ',' true ['a', ',', 'b'] (by decide)).2.1,
   (c6_field_count ',' false ['a', ',', 'b'] (by decide)).2.2 [['a'], ['b']] rfl⟩

/-- C7: `escape` returns the value wrapped in quotes with every internal
quote doubled exactly when the value contains the delimiter or a quote
character, and returns the value unchanged otherwise. -/
theorem c7_escape_spec (v : List Char) (d : Char) :
    escape v d = (if d ∈ v ∨ quoteChar ∈ v then
        quoteChar :: (v.foldr (fun c acc =>
          if c = quoteChar then quoteChar :: quoteChar :: acc else c :: acc) [])
          ++ [quoteChar]
      else v)
    ∧ (escape v d = v ↔ (d ∉ v ∧ quoteChar ∉ v)) := by
  have hiff : (containsChar v d || containsChar v quoteChar) = true
      ↔ (d ∈ v ∨ quoteChar ∈ v) := by
    rw [Bool.or_eq_true, containsChar_iff, containsChar_iff]
  constructor
  · by_cases h : d ∈ v ∨ quoteChar ∈ v
    · rw [if_pos h]
      unfold escape
      rw [hiff.mpr h, cond_true, doubleQuotes_foldr]
    · rw [if_neg h]
      have hb : (containsChar v d || containsChar v quoteChar) = false := by
        cases hc : (containsChar v d || containsChar v quoteChar) with
        | false => rfl
        | true => exact absurd (hiff.mp hc) h
      unfold escape
      rw [hb, cond_false]
  · constructor
    · intro he
      constructor
      · intro hmem
        exact escape_ne_self (hiff.mpr (Or.inl hmem)) he
      · intro hmem
        exact escape_ne_self (hiff.mpr (Or.inr hmem)) he
    · intro h
      have hb : (containsChar v d || containsChar v quoteChar) = false := by
        cases hc : (containsChar v d || containsChar v quoteChar) with
        | false => rfl
        | true => exact absurd (hiff.mp hc) (by simp [h.1, h.2])
      unfold escape
      rw [hb, cond_false]

/-- C8: for every line and delimiter, the non-literal tokenization equals
the literal tokenization with the quote-stripping and doubled-quote-
collapsing rule applied to each field (faulting where that rule faults). -/
theorem c8_literal_unescape (line : List Char) (d : Char) :
    tokenize line d false = (tokenize line d true).bind (fun fs => unescapeAll fs) :=
  tokenize_false_bind line d

/-- C9: the byte offset and the character offset of the cursor always
refer to the same logical point: the invariant holds initially, every
yielding call preserves it (or moves both strictly past the end of the
line, after the final field), and under it the slice the tokenizer takes
from the line is defined — it falls on character boundaries and returns
exactly the characters the scan consumed, never splitting a multi-byte
character. -/
theorem c9_cursor_sync (line : List Char) (d : Char) (lit : Bool) (s : CsvRow)
    (f : List Char) (s' : CsvRow) :
    Synced (CsvRow.new line d lit)
    ∧ (Synced s → byteSlice s.line s.byte_pos
        (s.byte_pos + (scanLoop s.delimiter s.prev_char (s.line.drop s.char_pos) 0 false).1)
        = some (fieldSplit s).1)
    ∧ (Synced s → s.next = .ok (some (f, s'))
        → (Synced s' ∨ utf8Len s'.line < s'.byte_pos)) := by
  refine ⟨synced_new line d lit, fun hs => slice_of_synced s hs, fun hs hn => ?_⟩
  by_cases hl : s.line = []
  · rw [next_nil hl] at hn
    simp at hn
  · have hadv := next_advance_of_some hs hn
    rw [hadv]
    exact sync_advance hs hl

/-- C9 (witness). -/
theorem c9_cursor_sync_witness :
    byteSlice ['a', 'b'] 0
      (0 + (scanLoop ',' none (['a', 'b'].drop 0) 0 false).1)
      = some (fieldSplit (CsvRow.new ['a', 'b'] ',' true)).1
    ∧ (Synced (⟨['a', 'b'], ',', true, 3, 3, some 'b'⟩ : CsvRow)
        ∨ utf8Len ['a', 'b'] < 3) := by
  have h := c9_cursor_sync ['a', 'b'] ',' true (CsvRow.new ['a', 'b'] ',' true)
    ['a', 'b'] (⟨['a', 'b'], ',', true, 3, 3, some 'b'⟩ : CsvRow)
  exact ⟨h.2.1 ⟨by decide, rfl⟩, h.2.2 ⟨by decide, rfl⟩ rfl⟩

/-- C10: a value that contains a line break but neither the delimiter nor
a quote character is returned unchanged by `escape`: the escaper never
quotes on account of an embedded newline. -/
theorem c10_newline_not_escaped (v : List Char) (d : Char) (lb : Char)
    (hlb : lb = '\n' ∨ lb = '\r') (hmem : lb ∈ v)
    (hd : containsChar v d = false) (hq : containsChar v quoteChar = false) :
    escape v d = v := by
  unfold escape
  rw [hd, hq]
  rfl

/-- C10 (witness). -/
theorem c10_newline_not_escaped_witness :
    (('\n' : Char) = '\n' ∨ ('\n' : Char) = '\r') ∧ '\n' ∈ ['a', '\n', 'b']
    ∧ containsChar ['a', '\n', 'b'] ',' = false
    ∧ containsChar ['a', '\n', 'b'] quoteChar = false
    ∧ escape ['a', '\n', 'b'] ',' = ['a', '\n', 'b'] :=
  ⟨Or.inl rfl, by decide, by decide, by decide,
   c10_newline_not_escaped ['a', '\n', 'b'] ',' '\n' (Or.inl rfl) (by decide)
     (by decide) (by decide)⟩
